import Mathlib

/-!
Verification of the adguard hosts-file manager against its specification.

The visible source of the repository is the Vue front end (BlockedList.vue,
DomainItem.vue, Settings.vue, History.vue, App.vue, useTheme.ts, state.ts);
the Rust core (parser, config store, history manager) is invoked through
Tauri commands and is not part of the visible source, so those parts are
modelled from the specification, each such definition marked
`Modelled from the spec:` in its doc comment.  Texts are embedded as
`List Char`, records as Lean structures, and the event handlers as pure
functions from their inputs to the backend invocations and toasts they
produce.
-/

namespace AdGuard

/-! ## Character classes of the hosts-file grammar -/

/-- Horizontal whitespace inside a hosts-file line. -/
def isWs (c : Char) : Bool := c = ' ' || c = '\t'

/-- A character that can appear in an IP or hostname token:
anything that is neither whitespace nor the comment sign. -/
def isTokChar (c : Char) : Bool := !(isWs c) && c ≠ '#'

/-! ## Splitting a text into physical lines (and joining back) -/

/-- Split a character list at every occurrence of `sep`; always returns at
least one (possibly empty) part, like `String.split`. -/
def splitSep (sep : Char) : List Char → List (List Char)
  | [] => [[]]
  | c :: rest =>
    if c = sep then [] :: splitSep sep rest
    else
      match splitSep sep rest with
      | [] => [[c]]
      | l :: ls => (c :: l) :: ls

/-- Join parts with `sep` between consecutive parts: inverse of `splitSep`. -/
def joinSep (sep : Char) : List (List Char) → List Char
  | [] => []
  | [l] => l
  | l :: ls => l ++ sep :: joinSep sep ls

theorem splitSep_ne_nil (sep : Char) (cs : List Char) : splitSep sep cs ≠ [] := by
  cases cs with
  | nil => simp [splitSep]
  | cons c rest =>
    simp only [splitSep]
    split
    · simp
    · split <;> simp

theorem joinSep_splitSep (sep : Char) (cs : List Char) :
    joinSep sep (splitSep sep cs) = cs := by
  induction cs with
  | nil => rfl
  | cons c rest ih =>
    simp only [splitSep]
    by_cases hc : c = sep
    · subst hc
      simp only [if_pos rfl]
      rcases h : splitSep c rest with _ | ⟨l, ls⟩
      · exact absurd h (splitSep_ne_nil c rest)
      · rw [h] at ih
        simpa [joinSep] using ih
    · rw [if_neg hc]
      rcases h : splitSep sep rest with _ | ⟨l, ls⟩
      · exact absurd h (splitSep_ne_nil sep rest)
      · rw [h] at ih
        cases ls with
        | nil => simpa [joinSep] using ih
        | cons l2 ls2 => simpa [joinSep] using ih

/-! ## Line records

Modelled from the spec: the Grammar Parser and serializer live in the Rust
core (`parser.rs`, `grammar/hosts.pest`), which is not part of the visible
source.  Per spec §3 and §4.1 a parsed line is tagged blank, comment, or
mapping {ip, one-or-more hostnames, optional trailing comment}, with all
original formatting retained so that serialization reconstructs the text
byte-for-byte. -/

/-- One physical line of the hosts file.  Formatting (leading whitespace,
the whitespace between tokens, and any trailing whitespace/comment) is kept
verbatim so that serialization is format-preserving. -/
inductive LineRecord where
  /-- A line consisting only of whitespace (kept verbatim). -/
  | blank (ws : List Char)
  /-- A comment line: leading whitespace, then the comment text starting
  at its first character, which is the comment sign. -/
  | comment (lead : List Char) (text : List Char)
  /-- A mapping line: leading whitespace, the IP token, then one or more
  (separating-whitespace, hostname-token) fields, then the remaining tail
  (trailing whitespace and/or a trailing comment). -/
  | mapping (lead : List Char) (ip : List Char)
      (fields : List (List Char × List Char)) (tl : List Char)
deriving Repr, DecidableEq

/-- Concatenate the fields of a mapping line back into text. -/
def flatFields (fields : List (List Char × List Char)) : List Char :=
  fields.foldr (fun p acc => p.1 ++ p.2 ++ acc) []

/-- Modelled from the spec: tokenizing the part of a mapping line that
follows the IP token into (whitespace, hostname) fields, stopping at the
trailing comment or the end of the line.  Fuel-indexed so that the
definition is structurally recursive; `fuel = length + 1` always suffices. -/
def parseFields : Nat → List Char → Option (List (List Char × List Char) × List Char)
  | 0, _ => none
  | fuel + 1, cs =>
    match cs.dropWhile isWs with
    | [] => some ([], cs)
    | c :: rest =>
      if c = '#' then some ([], cs)
      else
        (parseFields fuel ((c :: rest).dropWhile isTokChar)).map
          (fun p => ((cs.takeWhile isWs, (c :: rest).takeWhile isTokChar) :: p.1, p.2))

/-- Modelled from the spec: `parse` classifies one physical line as blank,
comment, or mapping (one IP token, one or more hostname tokens, optional
trailing comment), and fails when the line matches none of these shapes
(spec §4.1). -/
def parseLine (cs : List Char) : Option LineRecord :=
  match cs.dropWhile isWs with
  | [] => some (.blank cs)
  | c :: rest =>
    if c = '#' then some (.comment (cs.takeWhile isWs) (c :: rest))
    else
      (parseFields (((c :: rest).dropWhile isTokChar).length + 1)
          ((c :: rest).dropWhile isTokChar)).bind
        (fun p =>
          if p.1.isEmpty then none
          else some (.mapping (cs.takeWhile isWs) ((c :: rest).takeWhile isTokChar)
              p.1 p.2))

/-- Reconstruct the exact text of one line from its record. -/
def serializeLine : LineRecord → List Char
  | .blank ws => ws
  | .comment lead text => lead ++ text
  | .mapping lead ip fields tl => lead ++ ip ++ flatFields fields ++ tl

/-- Modelled from the spec: `parse(text)` splits the text into physical
lines and parses each; it fails when any line matches none of
{blank, comment, mapping} (spec §4.1). -/
def parse (cs : List Char) : Option (List LineRecord) :=
  (splitSep '\n' cs).mapM parseLine

/-- Modelled from the spec: `serialize` reconstructs each line and joins
the lines with newlines (spec §4.1). -/
def serialize (rs : List LineRecord) : List Char :=
  joinSep '\n' (rs.map serializeLine)

theorem flatFields_cons (p : List Char × List Char)
    (fs : List (List Char × List Char)) :
    flatFields (p :: fs) = p.1 ++ p.2 ++ flatFields fs := rfl

theorem parseFields_reconstruct :
    ∀ (fuel : Nat) (cs : List Char) (fs : List (List Char × List Char))
      (tl : List Char), parseFields fuel cs = some (fs, tl) →
      flatFields fs ++ tl = cs := by
  intro fuel
  induction fuel with
  | zero => intro cs fs tl h; simp [parseFields] at h
  | succ n ih =>
    intro cs fs tl h
    rw [parseFields] at h
    split at h
    · obtain ⟨rfl, rfl⟩ : ([], cs) = (fs, tl) := by simpa using h
      simp [flatFields]
    case _ c rest hd =>
      split at h
      · obtain ⟨rfl, rfl⟩ : ([], cs) = (fs, tl) := by simpa using h
        simp [flatFields]
      · rw [Option.map_eq_some'] at h
        rcases h with ⟨p, hrec, hval⟩
        have h1 : ((cs.takeWhile isWs, (c :: rest).takeWhile isTokChar) :: p.1) = fs :=
          congrArg Prod.fst hval
        have h2 : p.2 = tl := congrArg Prod.snd hval
        subst h1
        subst h2
        have hflat := ih _ p.1 p.2 (by simpa using hrec)
        have hstep : flatFields ((cs.takeWhile isWs, (c :: rest).takeWhile isTokChar) :: p.1)
            ++ p.2
            = cs.takeWhile isWs
              ++ ((c :: rest).takeWhile isTokChar ++ ((c :: rest).dropWhile isTokChar)) := by
          simp [flatFields_cons, List.append_assoc, hflat]
        rw [hstep, List.takeWhile_append_dropWhile, ← hd,
          List.takeWhile_append_dropWhile]

theorem serializeLine_parseLine (cs : List Char) (r : LineRecord)
    (h : parseLine cs = some r) : serializeLine r = cs := by
  rw [parseLine] at h
  split at h
  · obtain rfl : LineRecord.blank cs = r := by simpa using h
    rfl
  case _ c rest hd =>
    split at h
    · obtain rfl : LineRecord.comment (cs.takeWhile isWs) (c :: rest) = r := by
        simpa using h
      show cs.takeWhile isWs ++ (c :: rest) = cs
      rw [← hd, List.takeWhile_append_dropWhile]
    · rw [Option.bind_eq_some] at h
      rcases h with ⟨p, hrec, hval⟩
      by_cases he : p.1.isEmpty
      · rw [if_pos he] at hval; simp at hval
      · rw [if_neg he] at hval
        obtain rfl :
            LineRecord.mapping (cs.takeWhile isWs) ((c :: rest).takeWhile isTokChar)
              p.1 p.2 = r := by simpa using hval
        show cs.takeWhile isWs ++ (c :: rest).takeWhile isTokChar
            ++ flatFields p.1 ++ p.2 = cs
        have hflat := parseFields_reconstruct _ _ p.1 p.2 (by simpa using hrec)
        calc cs.takeWhile isWs ++ (c :: rest).takeWhile isTokChar
              ++ flatFields p.1 ++ p.2
            = cs.takeWhile isWs
              ++ ((c :: rest).takeWhile isTokChar ++ (flatFields p.1 ++ p.2)) := by
              simp [List.append_assoc]
          _ = cs.takeWhile isWs
              ++ ((c :: rest).takeWhile isTokChar ++ (c :: rest).dropWhile isTokChar) := by
              rw [hflat]
          _ = cs.takeWhile isWs ++ (c :: rest) := by
              rw [List.takeWhile_append_dropWhile]
          _ = cs := by rw [← hd, List.takeWhile_append_dropWhile]

theorem mapM_parseLine_reconstruct :
    ∀ (ls : List (List Char)) (rs : List LineRecord),
      ls.mapM parseLine = some rs → rs.map serializeLine = ls := by
  intro ls
  induction ls with
  | nil =>
    intro rs h
    rw [List.mapM_nil] at h
    obtain rfl := Option.some.inj h
    rfl
  | cons l ls ih =>
    intro rs h
    rw [List.mapM_cons] at h
    rcases h1 : parseLine l with _ | r <;> rw [h1] at h
    · simp at h
    · rcases h2 : ls.mapM parseLine with _ | rs2 <;> rw [h2] at h
      · simp at h
      · obtain rfl : r :: rs2 = rs := by simpa using h
        simp [serializeLine_parseLine l r h1, ih rs2 h2]

/-- A sample hosts-file text: a comment line, a mapping with two hostnames
and a trailing comment, a blank line, a whitespace line, and a mapping
without trailing comment. -/
def txtC3 : List Char :=
  ("# hosts\n127.0.0.1\tads.example.com x # y\n\n  \n1.2.3.4 site.org").toList

/-- The line records of `txtC3`. -/
def recsC3 : List LineRecord :=
  [.comment [] ("# hosts".toList),
   .mapping [] ("127.0.0.1".toList)
     [("\t".toList, "ads.example.com".toList), (" ".toList, "x".toList)]
     (" # y".toList),
   .blank [],
   .blank ("  ".toList),
   .mapping [] ("1.2.3.4".toList) [(" ".toList, "site.org".toList)] []]

/-- C3: round-trip law — for every hosts-file text `T` that `parse`
accepts, `serialize (parse T) = T`; `serialize` is the exact left inverse
of `parse` on accepted inputs. -/
theorem serialize_parse_roundtrip (cs : List Char) (rs : List LineRecord)
    (h : parse cs = some rs) : serialize rs = cs := by
  unfold parse at h
  unfold serialize
  rw [mapM_parseLine_reconstruct _ _ h, joinSep_splitSep]

/-- Witness for C3: the round-trip theorem applied to the concrete text
`txtC3`, which `parse` accepts with records `recsC3`. -/
theorem serialize_parse_roundtrip_witness :
    parse txtC3 = some recsC3 ∧ serialize recsC3 = txtC3 :=
  ⟨by decide, serialize_parse_roundtrip txtC3 recsC3 (by decide)⟩

/-! ## Domain validation on the UI add path (BlockedList.vue, addDomain) -/

/-- Whitespace stripped by the JS `trim` call in `addDomain`. -/
def isTrimWs (c : Char) : Bool := c = ' ' || c = '\t' || c = '\n' || c = '\r'

/-- `newDomain.value.trim()`: strip whitespace from both ends. -/
def trimChars (s : List Char) : List Char :=
  ((s.dropWhile isTrimWs).reverse.dropWhile isTrimWs).reverse

/-- An ASCII letter or digit, as in the character classes of the
validation regex. -/
def isAlnum (c : Char) : Bool :=
  ('a' ≤ c && c ≤ 'z') || ('A' ≤ c && c ≤ 'Z') || ('0' ≤ c && c ≤ '9')

/-- A letter, digit or hyphen: the interior character class of a label. -/
def isLabelChar (c : Char) : Bool := isAlnum c || c = '-'

/-- One label of the validation regex in `addDomain`: an alphanumeric
character, optionally followed by up to 61 alphanumeric-or-hyphen
characters and a final alphanumeric character (so 1 to 63 characters,
no leading or trailing hyphen). -/
def labelMatch (l : List Char) : Bool :=
  match l with
  | [] => false
  | [c] => isAlnum c
  | c :: rest =>
    isAlnum c && rest.length ≤ 62 && rest.dropLast.all isLabelChar &&
      (match rest.getLast? with
       | some d => isAlnum d
       | none => false)

/-- The whole validation regex of `addDomain`: one label, followed by any
number of dot-label groups — equivalently, every dot-separated part is a
label. -/
def domainMatch (s : List Char) : Bool := (splitSep '.' s).all labelMatch

/-- The claim's well-formedness condition on one label: 1 to 63
alphanumeric-or-hyphen characters, neither starting nor ending with a
hyphen. -/
def ValidLabel (l : List Char) : Prop :=
  1 ≤ l.length ∧ l.length ≤ 63 ∧ (∀ c ∈ l, isLabelChar c = true) ∧
    l.head? ≠ some '-' ∧ l.getLast? ≠ some '-'

/-- The claim's well-formedness condition on a domain name: a non-empty
sequence of dot-separated valid labels. -/
def ValidDomain (s : List Char) : Prop :=
  s ≠ [] ∧ ∀ l ∈ splitSep '.' s, ValidLabel l

instance : DecidablePred ValidLabel := fun l => by
  unfold ValidLabel
  infer_instance

instance : DecidablePred ValidDomain := fun s => by
  unfold ValidDomain
  infer_instance

theorem ne_hyphen_of_isAlnum {c : Char} (h : isAlnum c = true) : c ≠ '-' := by
  intro hc
  subst hc
  exact absurd h (by decide)

theorem isLabelChar_of_isAlnum {c : Char} (h : isAlnum c = true) :
    isLabelChar c = true := by
  simp [isLabelChar, h]

theorem validLabel_of_labelMatch :
    ∀ (l : List Char), labelMatch l = true → ValidLabel l := by
  intro l h
  match l with
  | [] => simp [labelMatch] at h
  | [c] =>
    simp only [labelMatch] at h
    refine ⟨by simp, by simp, ?_, ?_, ?_⟩
    · intro x hx
      have : x = c := by simpa using hx
      subst this
      exact isLabelChar_of_isAlnum h
    · simpa using ne_hyphen_of_isAlnum h
    · simpa [List.getLast?] using ne_hyphen_of_isAlnum h
  | c :: c2 :: rest2 =>
    simp only [labelMatch, Bool.and_eq_true, decide_eq_true_eq] at h
    obtain ⟨⟨⟨hc, hlen⟩, hmid⟩, hlast⟩ := h
    rcases hl : (c2 :: rest2).getLast? with _ | d
    · simp [List.getLast?_eq_getLast _ (List.cons_ne_nil c2 rest2)] at hl
    · rw [hl] at hlast
      refine ⟨by simp, ?_, ?_, ?_, ?_⟩
      · simp only [List.length_cons] at hlen ⊢
        omega
      · intro x hx
        rcases List.mem_cons.mp hx with rfl | hx2
        · exact isLabelChar_of_isAlnum hc
        · have hsplit : (c2 :: rest2).dropLast ++ [d] = c2 :: rest2 :=
            List.dropLast_append_getLast? d (by simp [hl])
          rw [← hsplit] at hx2
          rcases List.mem_append.mp hx2 with hx3 | hx4
          · exact (List.all_eq_true.mp hmid) x hx3
          · have : x = d := by simpa using hx4
            subst this
            exact isLabelChar_of_isAlnum hlast
      · simpa using ne_hyphen_of_isAlnum hc
      · rw [List.getLast?_cons_cons, hl]
        simpa using ne_hyphen_of_isAlnum hlast

theorem validDomain_of_domainMatch (s : List Char)
    (h : domainMatch s = true) : ValidDomain s := by
  constructor
  · intro hs
    subst hs
    simp [domainMatch, splitSep, labelMatch] at h
  · intro l hl
    exact validLabel_of_labelMatch l ((List.all_eq_true.mp h) l hl)

/-- The outcome of the `addDomain` handler: a validation error toast, or
an invocation of the backend `add_domain` command. -/
inductive AddOutcome where
  | errorEmpty
  | errorInvalid
  | invokeAdd (ip hostname : List Char)
deriving Repr, DecidableEq

/-- BlockedList.vue `addDomain()`: trim the input; reject an empty result
("Please enter a domain name"); reject input failing the validation regex
("Please enter a valid domain name"); otherwise invoke the backend command
`add_domain` with ip "127.0.0.1" and the trimmed hostname. -/
def addDomain (input : List Char) : AddOutcome :=
  let domain := trimChars input
  if domain = [] then .errorEmpty
  else if !(domainMatch domain) then .errorInvalid
  else .invokeAdd ("127.0.0.1").toList domain

/-- C5: a malformed domain name is rejected with a validation error before
any store mutation — whenever the trimmed input is empty or is not a
sequence of dot-separated labels of 1-63 alphanumeric-or-hyphen characters
neither starting nor ending with a hyphen, `addDomain` reports an error
and never invokes the backend `add_domain` command. -/
theorem addDomain_rejects_malformed (input : List Char)
    (h : trimChars input = [] ∨ ¬ ValidDomain (trimChars input)) :
    addDomain input = .errorEmpty ∨ addDomain input = .errorInvalid := by
  rcases h with h | h
  · left
    simp [addDomain, h]
  · by_cases he : trimChars input = []
    · left
      simp [addDomain, he]
    · right
      have hm : domainMatch (trimChars input) = false := by
        by_contra hb
        exact h (validDomain_of_domainMatch _ (by simpa using hb))
      simp [addDomain, he, hm]

/-- Witness for C5: the input "-ads.example.com" has a label starting with
a hyphen, so it is malformed and `addDomain` rejects it. -/
theorem addDomain_rejects_malformed_witness :
    (¬ ValidDomain (trimChars ("-ads.example.com").toList)) ∧
      (addDomain ("-ads.example.com").toList = .errorEmpty ∨
        addDomain ("-ads.example.com").toList = .errorInvalid) :=
  ⟨by decide, addDomain_rejects_malformed _ (Or.inr (by decide))⟩

/-- C8: every domain added through the UI is blocked by mapping it to the
loopback address — whenever `addDomain` reaches the backend invocation,
the ip is exactly "127.0.0.1" and the hostname is the trimmed input; no
other IP is used by the add path. -/
theorem addDomain_invokes_loopback (input ip hostname : List Char)
    (h : addDomain input = .invokeAdd ip hostname) :
    ip = ("127.0.0.1").toList ∧ hostname = trimChars input := by
  unfold addDomain at h
  by_cases he : trimChars input = []
  · simp [he] at h
  · by_cases hm : domainMatch (trimChars input)
    · simp only [he, hm, if_false, Bool.not_true, if_neg] at h
      rcases h with _
      simp_all
    · simp [he, hm] at h

/-- Witness for C8: adding " ads.example.com " (note the surrounding
whitespace) invokes `add_domain` with "127.0.0.1" and the trimmed name. -/
theorem addDomain_invokes_loopback_witness :
    ("127.0.0.1").toList = ("127.0.0.1").toList ∧
      ("ads.example.com").toList = trimChars (" ads.example.com ").toList :=
  addDomain_invokes_loopback (" ads.example.com ").toList
    ("127.0.0.1").toList ("ads.example.com").toList (by decide)

/-! ## Configuration (Settings.vue, useTheme.ts, and the spec-modelled
config store) -/

/-- The Configuration record (spec §3): optional path overrides, the
retention cap, and the theme. -/
structure Configuration where
  host_file_path : Option (List Char)
  history_dir : Option (List Char)
  max_history_entries : Nat
  theme : List Char
deriving Repr, DecidableEq

/-- A partial update submitted through `update_config`: Settings.vue
sends all four fields, useTheme.ts sends only the theme.  The submitted
retention cap is an arbitrary integer (the number input does not clamp). -/
structure ConfigPatch where
  host_file_path : Option (Option (List Char))
  history_dir : Option (Option (List Char))
  max_history_entries : Option Int
  theme : Option (List Char)
deriving Repr, DecidableEq

/-- Modelled from the spec: `max_history_entries` is clamped to the
interval [1, 1000] (spec §3, Configuration invariant). -/
def clampHistoryEntries (n : Int) : Nat := (max 1 (min 1000 n)).toNat

/-- Modelled from the spec: `update_config(partial)` merges the submitted
fields into the existing configuration and persists it (spec §4.6),
clamping `max_history_entries` (spec §3). -/
def update_config (c : Configuration) (p : ConfigPatch) : Configuration :=
  ⟨p.host_file_path.getD c.host_file_path,
   p.history_dir.getD c.history_dir,
   (match p.max_history_entries with
    | some n => clampHistoryEntries n
    | none => c.max_history_entries),
   p.theme.getD c.theme⟩

/-- Settings.vue `saveSettings()`: the patch sent to `update_config` —
empty path fields become null, the retention cap is sent as typed. -/
def saveSettings (hostPath historyDirPath : List Char) (maxEntries : Int)
    (theme : List Char) : ConfigPatch :=
  ⟨some (if hostPath = [] then none else some hostPath),
   some (if historyDirPath = [] then none else some historyDirPath),
   some maxEntries,
   some theme⟩

/-- C4: after every configuration update the persisted
`max_history_entries` lies in [1, 1000]: an out-of-range submitted value
is clamped by `update_config`, so the invariant is preserved by every
update. -/
theorem update_config_clamps (c : Configuration) (p : ConfigPatch)
    (h : 1 ≤ c.max_history_entries ∧ c.max_history_entries ≤ 1000) :
    1 ≤ (update_config c p).max_history_entries ∧
      (update_config c p).max_history_entries ≤ 1000 := by
  unfold update_config
  rcases hp : p.max_history_entries with _ | n
  · simpa using h
  · simp only [hp]
    unfold clampHistoryEntries
    omega

/-- Witness for C4: submitting 5000 through the Settings form clamps the
persisted value into [1, 1000]. -/
theorem update_config_clamps_witness :
    (1 ≤ (Configuration.mk none none 50 ("dark").toList).max_history_entries ∧
      (Configuration.mk none none 50 ("dark").toList).max_history_entries ≤ 1000) ∧
    (1 ≤ (update_config (Configuration.mk none none 50 ("dark").toList)
        (saveSettings [] [] 5000 ("dark").toList)).max_history_entries ∧
      (update_config (Configuration.mk none none 50 ("dark").toList)
        (saveSettings [] [] 5000 ("dark").toList)).max_history_entries ≤ 1000) :=
  ⟨by decide,
   update_config_clamps (Configuration.mk none none 50 ("dark").toList)
    (saveSettings [] [] 5000 ("dark").toList) (by decide)⟩

/-! ## History entries and date formatting (History.vue) -/

/-- The `HistoryEntry` interface of History.vue; the timestamp is a Unix
time in seconds (spec §3). -/
structure HistoryEntry where
  filename : List Char
  path : List Char
  entry_count : Nat
  file_size : Nat
  timestamp : Nat
deriving Repr, DecidableEq

/-- History.vue `formatDate`: the milliseconds value handed to
`new Date(timestamp * 1000)`. -/
def formatDateMillis (timestamp : Nat) : Nat := timestamp * 1000

/-- The epoch-milliseconds value denoting the same instant as a Unix time
in seconds: the JS Date constructor expects milliseconds. -/
def millisOfUnixSeconds (seconds : Nat) : Nat := 1000 * seconds

/-- C7: a History Entry carries exactly the five fields
filename/path/entry_count/file_size/timestamp (two entries agreeing on
those five fields are the same entry), and `formatDate` obtains the
correct wall-clock time from a seconds timestamp by scaling it to the
milliseconds epoch. -/
theorem historyEntry_fields_and_formatDate :
    (∀ e₁ e₂ : HistoryEntry, e₁ = e₂ ↔
      (e₁.filename = e₂.filename ∧ e₁.path = e₂.path ∧
       e₁.entry_count = e₂.entry_count ∧ e₁.file_size = e₂.file_size ∧
       e₁.timestamp = e₂.timestamp)) ∧
    (∀ t : Nat, formatDateMillis t = millisOfUnixSeconds t) := by
  constructor
  · intro e₁ e₂
    constructor
    · intro h
      subst h
      exact ⟨rfl, rfl, rfl, rfl, rfl⟩
    · rintro ⟨h1, h2, h3, h4, h5⟩
      cases e₁
      cases e₂
      simp_all
  · intro t
    simp [formatDateMillis, millisOfUnixSeconds, Nat.mul_comm]

/-! ## Error propagation of the catch handlers (C6)

Each definition records, in order, the visible effects of one catch block
in the front end: a console log and/or a user-facing toast. -/

/-- A visible effect of a catch handler. -/
inductive Effect where
  | consoleError
  | toastError
deriving Repr, DecidableEq

/-- BlockedList.vue `loadBlockedDomains` catch: console.error only. -/
def loadBlockedDomainsOnError : List Effect := [.consoleError]

/-- BlockedList.vue `addDomain` catch: console.error and an error toast. -/
def addDomainOnError : List Effect := [.consoleError, .toastError]

/-- BlockedList.vue `removeDomain` catch. -/
def removeDomainOnError : List Effect := [.consoleError, .toastError]

/-- BlockedList.vue `saveChanges` catch. -/
def saveChangesOnError : List Effect := [.consoleError, .toastError]

/-- History.vue `loadHistory` catch. -/
def loadHistoryOnError : List Effect := [.consoleError, .toastError]

/-- History.vue `deleteSelected` catch. -/
def deleteSelectedOnError : List Effect := [.consoleError, .toastError]

/-- History.vue `rollbackTo` catch. -/
def rollbackToOnError : List Effect := [.consoleError, .toastError]

/-- Settings.vue `loadSettings` catch. -/
def loadSettingsOnError : List Effect := [.consoleError, .toastError]

/-- Settings.vue `saveSettings` catch. -/
def saveSettingsOnError : List Effect := [.consoleError, .toastError]

/-- useTheme.ts `setTheme` catch (the theme-change `update_config` call):
console.error only. -/
def setThemeOnError : List Effect := [.consoleError]

/-- useTheme.ts `loadTheme` catch: console.error and a silent fallback to
the dark theme. -/
def loadThemeOnError : List Effect := [.consoleError]

/-- App.vue onMounted catch around `check_admin_privileges`:
console.error and a silent fallback to false. -/
def checkAdminPrivilegesOnError : List Effect := [.consoleError]

/-- Settings.vue `getDefaultHostPath` catch: console.error and a silent
empty-string fallback. -/
def getDefaultHostPathOnError : List Effect := [.consoleError]

/-- C6 counterexample: a failure of `get_blocked_domains`/`get_statistics`
during load, and of `update_config` during a theme change, is only logged
to the console — no toast surfaces it to the user — although neither is
the DNS-flush nor a watcher-reload failure.  This refutes the claim that
every other failing operation surfaces its error. -/
theorem error_surfacing_counterexample :
    Effect.toastError ∉ loadBlockedDomainsOnError ∧
    Effect.toastError ∉ setThemeOnError ∧
    Effect.consoleError ∈ loadBlockedDomainsOnError ∧
    Effect.consoleError ∈ setThemeOnError := by decide

/-- C6 (amended): the mutating and history operations surface their
errors as toasts, but besides the DNS-flush and watcher-reload cases the
UI also swallows (logs without surfacing) failures of the blocked-domains
and statistics load, the theme-change update, the theme load, the
admin-privilege check, and the default-host-path lookup. -/
theorem error_surfacing_amended :
    Effect.toastError ∈ addDomainOnError ∧
    Effect.toastError ∈ removeDomainOnError ∧
    Effect.toastError ∈ saveChangesOnError ∧
    Effect.toastError ∈ loadHistoryOnError ∧
    Effect.toastError ∈ deleteSelectedOnError ∧
    Effect.toastError ∈ rollbackToOnError ∧
    Effect.toastError ∈ loadSettingsOnError ∧
    Effect.toastError ∈ saveSettingsOnError ∧
    Effect.toastError ∉ loadBlockedDomainsOnError ∧
    Effect.toastError ∉ setThemeOnError ∧
    Effect.toastError ∉ loadThemeOnError ∧
    Effect.toastError ∉ checkAdminPrivilegesOnError ∧
    Effect.toastError ∉ getDefaultHostPathOnError ∧
    Effect.consoleError ∈ loadBlockedDomainsOnError ∧
    Effect.consoleError ∈ setThemeOnError ∧
    Effect.consoleError ∈ loadThemeOnError ∧
    Effect.consoleError ∈ checkAdminPrivilegesOnError ∧
    Effect.consoleError ∈ getDefaultHostPathOnError := by decide

/-! ## Privilege gating (App.vue, BlockedList.vue, DomainItem.vue) -/

/-- App.vue: the BlockedList component receives
`disabled = (hasAdminPrivileges === false)`; the ref starts as null and is
set from `check_admin_privileges`. -/
def blockedListDisabled (hasAdminPrivileges : Option Bool) : Bool :=
  hasAdminPrivileges == some false

/-- BlockedList.vue: the "+ Add Domain" button is disabled exactly when
the component is disabled. -/
def addDomainButtonDisabled (disabled : Bool) : Bool := disabled

/-- BlockedList.vue: the "Add" button of the input row is disabled while
adding, on empty trimmed input, or when the component is disabled. -/
def addButtonDisabled (isAdding : Bool) (newDomain : List Char)
    (disabled : Bool) : Bool :=
  isAdding || (trimChars newDomain).isEmpty || disabled

/-- BlockedList.vue: "Save Changes" is disabled while saving or when the
component is disabled. -/
def saveChangesButtonDisabled (isSaving disabled : Bool) : Bool :=
  isSaving || disabled

/-- DomainItem.vue `handleRemove`: the remove event (ip, hostname) is
emitted only when the item is not disabled. -/
def handleRemove (disabled : Bool) (ip hostname : List Char) :
    List (List Char × List Char) :=
  if disabled then [] else [(ip, hostname)]

/-- BlockedList.vue `loadBlockedDomains`: the backend commands invoked by
the read path; the disabled flag plays no role here. -/
def loadBlockedDomainsCalls (_disabled : Bool) : List (List Char) :=
  [("get_blocked_domains").toList, ("get_statistics").toList]

/-- C1 counterexample: in a session where `check_admin_privileges`
returned false the Add Domain button, the Add button and Save Changes are
all disabled and the remove handler emits nothing — add and remove cannot
be performed, contrary to the claim that only saving is gated. -/
theorem privilege_gating_counterexample :
    blockedListDisabled (some false) = true ∧
    addDomainButtonDisabled (blockedListDisabled (some false)) = true ∧
    addButtonDisabled false ("ads.example.com").toList
      (blockedListDisabled (some false)) = true ∧
    handleRemove (blockedListDisabled (some false)) ("127.0.0.1").toList
      ("ads.example.com").toList = [] ∧
    saveChangesButtonDisabled false (blockedListDisabled (some false)) = true := by
  decide

/-- C1 (amended): when `check_admin_privileges` returns false the UI
disables add, remove and save alike — not only saving — while the read
path (loading blocked domains and statistics) stays available in every
session. -/
theorem privilege_gating_amended (hasAdmin : Option Bool)
    (ip hostname : List Char) :
    loadBlockedDomainsCalls (blockedListDisabled hasAdmin)
      = [("get_blocked_domains").toList, ("get_statistics").toList] ∧
    (addDomainButtonDisabled (blockedListDisabled hasAdmin) = true ↔
      hasAdmin = some false) ∧
    (saveChangesButtonDisabled false (blockedListDisabled hasAdmin) = true ↔
      hasAdmin = some false) ∧
    (handleRemove (blockedListDisabled hasAdmin) ip hostname = [] ↔
      hasAdmin = some false) := by
  refine ⟨rfl, ?_, ?_, ?_⟩ <;>
    rcases hasAdmin with _ | _ | _ <;>
    simp [blockedListDisabled, addDomainButtonDisabled,
      saveChangesButtonDisabled, handleRemove]

/-! ## History deletion and rollback (History.vue, and the spec-modelled
history manager) -/

/-- A toast shown by the history view. -/
inductive HistoryUiToast where
  | errorNoSelection
  | successDeleted (count : Nat)
  | errorDeleteFailed
  | successRollback
  | errorRollbackFailed
deriving Repr, DecidableEq

/-- Modelled from the spec: `delete_history_files(filenames)` removes
index entries and backing files for a batch and returns a per-file
result — a missing file fails its own entry without blocking the rest
(spec §4.4, §6).  `existing` is the list of snapshot filenames on disk;
the result pairs each requested filename with its success flag, and the
second component is the remaining on-disk set. -/
def delete_history_files (filenames existing : List (List Char)) :
    List (List Char × Bool) × List (List Char) :=
  (filenames.map (fun f => (f, existing.contains f)),
   existing.filter (fun e => !(filenames.contains e)))

/-- The visible outcome of History.vue `deleteSelected`: the filenames
passed to the backend (when invoked) and the toasts shown. -/
structure DeleteOutcome where
  invoked : Option (List (List Char))
  toasts : List HistoryUiToast
deriving Repr, DecidableEq

/-- History.vue `deleteSelected()`: an empty selection shows an error
toast; otherwise a confirmation dialog gates the call; when confirmed the
backend command is invoked with the selected filenames and, when it
resolves, a blanket success toast reports the selection size — the
per-file result is never read by the caller. -/
def deleteSelected (selection : List (List Char)) (confirmed : Bool)
    (existing : List (List Char)) : DeleteOutcome × List (List Char) :=
  if selection.length = 0 then (⟨none, [.errorNoSelection]⟩, existing)
  else if !confirmed then (⟨none, []⟩, existing)
  else
    let result := delete_history_files selection existing
    (⟨some selection, [.successDeleted selection.length]⟩, result.2)

/-- History.vue `rollbackTo(filename)`: a confirmation dialog gates the
backend call; declined means no invocation and no toast. -/
def rollbackTo (filename : List Char) (confirmed : Bool) :
    Option (List Char) × List HistoryUiToast :=
  if !confirmed then (none, [])
  else (some filename, [.successRollback])

/-- C2 counterexample: deleting the selection [a, b] when only a exists
yields the per-file result [(a, true), (b, false)] — b's deletion
failed — yet the caller's toast reports success for both entries, so the
per-file outcome is not received or reported by the caller. -/
theorem delete_reporting_counterexample :
    (delete_history_files [("a.hosts").toList, ("b.hosts").toList]
        [("a.hosts").toList]).1
      = [(("a.hosts").toList, true), (("b.hosts").toList, false)] ∧
    (deleteSelected [("a.hosts").toList, ("b.hosts").toList] true
        [("a.hosts").toList]).1.toasts
      = [.successDeleted 2] := by decide

/-- C2 (amended): the backend operation reports a per-file result and a
missing file does not block deleting the rest (spec-modelled); the UI
caller, however, discards that result and reports blanket success for the
whole selection whenever the command resolves. -/
theorem delete_history_files_per_file (filenames existing : List (List Char))
    (h : filenames ≠ []) :
    ((delete_history_files filenames existing).1).map Prod.fst = filenames ∧
    (∀ p ∈ (delete_history_files filenames existing).1,
        p.2 = existing.contains p.1) ∧
    (∀ e, e ∈ (delete_history_files filenames existing).2 ↔
        (e ∈ existing ∧ e ∉ filenames)) ∧
    (deleteSelected filenames true existing).1.toasts
      = [.successDeleted filenames.length] := by
  refine ⟨?_, ?_, ?_, ?_⟩
  · show (filenames.map (fun f => (f, existing.contains f))).map Prod.fst = filenames
    rw [List.map_map]
    exact List.map_id filenames
  · intro p hp
    simp only [delete_history_files, List.mem_map] at hp
    obtain ⟨f, _, rfl⟩ := hp
    rfl
  · intro e
    simp [delete_history_files]
  · have hlen : ¬ filenames.length = 0 := by
      simpa [List.length_eq_zero] using h
    simp [deleteSelected, hlen]

/-- Witness for C2's amended theorem at a singleton selection. -/
theorem delete_history_files_per_file_witness :
    ((delete_history_files [("a.hosts").toList] [("b.hosts").toList]).1).map
        Prod.fst = [("a.hosts").toList] ∧
    (deleteSelected [("a.hosts").toList] true [("b.hosts").toList]).1.toasts
      = [.successDeleted 1] :=
  ⟨(delete_history_files_per_file [("a.hosts").toList] [("b.hosts").toList]
      (by decide)).1,
   (delete_history_files_per_file [("a.hosts").toList] [("b.hosts").toList]
      (by decide)).2.2.2⟩

/-- C10: the destructive history operations are gated on explicit
confirmation — `rollback_to` is invoked only when its dialog returned
true, `delete_history_files` only for a non-empty selection whose dialog
returned true, and a declined confirmation leaves no invocation, no toast
and no state change. -/
theorem confirmation_gating (filename : List Char)
    (selection existing : List (List Char)) (confirmed : Bool) :
    ((rollbackTo filename confirmed).1 ≠ none → confirmed = true) ∧
    ((deleteSelected selection confirmed existing).1.invoked ≠ none →
      confirmed = true ∧ selection ≠ []) ∧
    (rollbackTo filename false = (none, [])) ∧
    (deleteSelected selection false existing
        = (⟨none, []⟩, existing) ∨
      deleteSelected selection false existing
        = (⟨none, [.errorNoSelection]⟩, existing)) := by
  refine ⟨?_, ?_, by simp [rollbackTo], ?_⟩
  · intro hinv
    cases confirmed with
    | true => rfl
    | false => simp [rollbackTo] at hinv
  · intro hinv
    by_cases hsel : selection.length = 0
    · simp [deleteSelected, hsel] at hinv
    · cases confirmed with
      | true =>
        exact ⟨rfl, by simpa [List.length_eq_zero] using hsel⟩
      | false => simp [deleteSelected, hsel] at hinv
  · by_cases hsel : selection.length = 0
    · right
      simp [deleteSelected, hsel]
    · left
      simp [deleteSelected, hsel]

/-- Witness for C10: a confirmed, non-empty deletion implies the gates of
the theorem held on that invocation. -/
theorem confirmation_gating_witness :
    true = true ∧ ([("a.hosts").toList] : List (List Char)) ≠ [] :=
  (confirmation_gating [] [("a.hosts").toList] [] true).2.1 (by decide)

/-! ## Selection state of the history view (History.vue) -/

/-- Association-list update of the checked-state map: set key `k` to `v`,
appending when absent (JS object property assignment keeps insertion
order). -/
def assocSet (m : List (List Char × Bool)) (k : List Char) (v : Bool) :
    List (List Char × Bool) :=
  match m with
  | [] => [(k, v)]
  | (k2, v2) :: rest =>
    if k2 = k then (k, v) :: rest else (k2, v2) :: assocSet rest k v

/-- Association-list lookup (JS property read). -/
def assocLookup (m : List (List Char × Bool)) (k : List Char) : Option Bool :=
  match m with
  | [] => none
  | (k2, v2) :: rest => if k2 = k then some v2 else assocLookup rest k

/-- The keys of the checked-state map, in insertion order. -/
def mapKeys (m : List (List Char × Bool)) : List (List Char) := m.map Prod.fst

/-- The filenames whose checked state is true, in map order, without
duplicates (the JS Set built by `updateSelectedEntries`). -/
def trueKeys (m : List (List Char × Bool)) : List (List Char) :=
  ((m.filter (fun p => p.2)).map Prod.fst).dedup

/-- The reactive state of the history view that drives selection. -/
structure HistoryViewState where
  historyEntries : List HistoryEntry
  entryCheckedStates : List (List Char × Bool)
  selectedEntries : List (List Char)
  selectAllChecked : Bool
deriving Repr, DecidableEq

/-- The filenames of the listed entries. -/
def entryFilenames (s : HistoryViewState) : List (List Char) :=
  s.historyEntries.map HistoryEntry.filename

/-- History.vue `updateSelectedEntries()`: recompute `selectedEntries` as
the set of filenames whose checked state is true, and `selectAllChecked`
as (list non-empty and selection size equals list length). -/
def updateSelectedEntries (s : HistoryViewState) : HistoryViewState :=
  ⟨s.historyEntries, s.entryCheckedStates, trueKeys s.entryCheckedStates,
   decide (0 < s.historyEntries.length) &&
     decide ((trueKeys s.entryCheckedStates).length = s.historyEntries.length)⟩

/-- History.vue watch(selectAllChecked): toggling select-all writes the
value into every listed entry's checked state and the derived selection is
recomputed (the state shown is the converged one after the reactive
cascade settles). -/
def setAllChecked (s : HistoryViewState) (v : Bool) : HistoryViewState :=
  updateSelectedEntries
    ⟨s.historyEntries,
     s.historyEntries.foldl (fun m e => assocSet m e.filename v)
       s.entryCheckedStates,
     s.selectedEntries, v⟩

/-- History.vue `setEntryChecked`: one checkbox update; the tri-state
model-value (true, false, indeterminate or undefined) is coerced with an
equality test against true. -/
def setEntryChecked (s : HistoryViewState) (f : List Char) (v : Option Bool) :
    HistoryViewState :=
  updateSelectedEntries
    ⟨s.historyEntries, assocSet s.entryCheckedStates f (v == some true),
     s.selectedEntries, s.selectAllChecked⟩

/-- History.vue watch(historyEntries) after a reload: initialize missing
filenames to unchecked, drop keys whose entry no longer exists, then
recompute the derived selection. -/
def reloadEntries (s : HistoryViewState) (entries : List HistoryEntry) :
    HistoryViewState :=
  let m1 := entries.foldl
    (fun m e =>
      if (assocLookup m e.filename).isSome then m
      else m ++ [(e.filename, false)])
    s.entryCheckedStates
  let m2 := m1.filter (fun p => entries.any (fun e => e.filename == p.1))
  updateSelectedEntries ⟨entries, m2, s.selectedEntries, s.selectAllChecked⟩

/-- Claim C9's invariant: the selection equals exactly the set of
filenames whose checked state is true, and select-all holds iff the list
is non-empty and every listed entry is checked. -/
def SelectionInv (s : HistoryViewState) : Prop :=
  (∀ f, f ∈ s.selectedEntries ↔
    assocLookup s.entryCheckedStates f = some true) ∧
  (s.selectAllChecked = true ↔
    (s.historyEntries ≠ [] ∧
      ∀ e ∈ s.historyEntries,
        assocLookup s.entryCheckedStates e.filename = some true))

/-- The keys of the checked-state map are exactly the filenames of the
listed entries (as finite sets; both sides are duplicate-free in every
reachable state). -/
def KeysMatch (s : HistoryViewState) : Prop :=
  (mapKeys s.entryCheckedStates).Perm (entryFilenames s)

instance (s : HistoryViewState) : Decidable (KeysMatch s) := by
  unfold KeysMatch
  infer_instance

theorem assocLookup_isSome (m : List (List Char × Bool)) (k : List Char) :
    (assocLookup m k).isSome = true ↔ k ∈ mapKeys m := by
  induction m with
  | nil => simp [assocLookup, mapKeys]
  | cons p rest ih =>
    obtain ⟨k2, v2⟩ := p
    by_cases hk : k2 = k
    · subst hk
      simp [assocLookup, mapKeys]
    · simp only [assocLookup, if_neg hk, mapKeys, List.map_cons, List.mem_cons]
      rw [ih]
      constructor
      · intro hmem
        exact Or.inr hmem
      · rintro (rfl | hmem)
        · exact absurd rfl hk
        · exact hmem

theorem mem_of_assocLookup {m : List (List Char × Bool)} {k : List Char}
    {v : Bool} (h : assocLookup m k = some v) : (k, v) ∈ m := by
  induction m with
  | nil => simp [assocLookup] at h
  | cons p rest ih =>
    obtain ⟨k2, v2⟩ := p
    by_cases hk : k2 = k
    · subst hk
      rw [assocLookup, if_pos rfl] at h
      obtain rfl := Option.some.inj h
      exact List.mem_cons_self _ _
    · rw [assocLookup, if_neg hk] at h
      exact List.mem_cons_of_mem _ (ih h)

theorem assocLookup_of_mem_nodup {m : List (List Char × Bool)}
    {k : List Char} {v : Bool} (hnd : (mapKeys m).Nodup) (h : (k, v) ∈ m) :
    assocLookup m k = some v := by
  induction m with
  | nil => simp at h
  | cons p rest ih =>
    obtain ⟨k2, v2⟩ := p
    rw [mapKeys, List.map_cons, List.nodup_cons] at hnd
    rcases List.mem_cons.mp h with heq | hmem
    · obtain ⟨rfl, rfl⟩ : k2 = k ∧ v2 = v := by
        have h1 := congrArg Prod.fst heq.symm
        have h2 := congrArg Prod.snd heq.symm
        exact ⟨h1, h2⟩
      simp [assocLookup]
    · have hk : k2 ≠ k := by
        intro hk
        subst hk
        exact hnd.1 (by simpa [mapKeys] using List.mem_map_of_mem Prod.fst hmem)
      rw [assocLookup, if_neg hk]
      exact ih hnd.2 hmem

theorem mapKeys_assocSet_of_mem {m : List (List Char × Bool)}
    {k : List Char} (v : Bool) (h : k ∈ mapKeys m) :
    mapKeys (assocSet m k v) = mapKeys m := by
  induction m with
  | nil => simp [mapKeys] at h
  | cons p rest ih =>
    obtain ⟨k2, v2⟩ := p
    by_cases hk : k2 = k
    · subst hk
      simp [assocSet, mapKeys]
    · rw [mapKeys, List.map_cons] at h
      rcases List.mem_cons.mp h with rfl | hmem
      · exact absurd rfl hk
      · rw [assocSet, if_neg hk]
        simp only [mapKeys, List.map_cons]
        congr 1
        exact ih hmem

theorem assocLookup_assocSet_self (m : List (List Char × Bool))
    (k : List Char) (v : Bool) : assocLookup (assocSet m k v) k = some v := by
  induction m with
  | nil => simp [assocSet, assocLookup]
  | cons p rest ih =>
    obtain ⟨k2, v2⟩ := p
    by_cases hk : k2 = k
    · subst hk
      simp [assocSet, assocLookup]
    · rw [assocSet, if_neg hk, assocLookup, if_neg hk]
      exact ih

theorem assocLookup_assocSet_other (m : List (List Char × Bool))
    {k k2 : List Char} (v : Bool) (h : k2 ≠ k) :
    assocLookup (assocSet m k v) k2 = assocLookup m k2 := by
  induction m with
  | nil =>
    show (if k = k2 then some v else assocLookup [] k2) = assocLookup [] k2
    rw [if_neg (Ne.symm h)]
  | cons p rest ih =>
    obtain ⟨k3, v3⟩ := p
    by_cases hk : k3 = k
    · subst hk
      rw [assocSet, if_pos rfl, assocLookup, assocLookup,
        if_neg (Ne.symm h), if_neg (Ne.symm h)]
    · rw [assocSet, if_neg hk, assocLookup, assocLookup]
      by_cases hk2 : k3 = k2
      · rw [if_pos hk2, if_pos hk2]
      · rw [if_neg hk2, if_neg hk2]
        exact ih

theorem trueKeys_eq_of_nodup {m : List (List Char × Bool)}
    (hnd : (mapKeys m).Nodup) :
    trueKeys m = (m.filter (fun p => p.2)).map Prod.fst := by
  unfold trueKeys
  apply List.dedup_eq_self.mpr
  exact ((List.filter_sublist m).map Prod.fst).nodup hnd


theorem mem_trueKeys {m : List (List Char × Bool)}
    (hnd : (mapKeys m).Nodup) (f : List Char) :
    f ∈ trueKeys m ↔ assocLookup m f = some true := by
  rw [trueKeys, List.mem_dedup]
  constructor
  · intro hf
    obtain ⟨p, hp, rfl⟩ := List.mem_map.mp hf
    obtain ⟨hpm, hpt⟩ := List.mem_filter.mp hp
    have : (p.1, true) ∈ m := by
      have hb : p.2 = true := by simpa using hpt
      rw [← hb]
      exact hpm
    exact assocLookup_of_mem_nodup hnd this
  · intro hf
    have hmem := mem_of_assocLookup hf
    refine List.mem_map.mpr ⟨(f, true), List.mem_filter.mpr ⟨hmem, by simp⟩, rfl⟩

theorem selectAll_characterization (m : List (List Char × Bool))
    (names : List (List Char)) (hperm : (mapKeys m).Perm names)
    (hnd : names.Nodup) :
    ((0 < names.length ∧ (trueKeys m).length = names.length) ↔
      (names ≠ [] ∧ ∀ f ∈ names, assocLookup m f = some true)) := by
  have hk : (mapKeys m).Nodup := hperm.nodup_iff.mpr hnd
  have htk : trueKeys m = (m.filter (fun p => p.2)).map Prod.fst :=
    trueKeys_eq_of_nodup hk
  have hsub : List.Sublist ((m.filter (fun p => p.2)).map Prod.fst) (mapKeys m) :=
    (List.filter_sublist m).map Prod.fst
  constructor
  · rintro ⟨hpos, hlen⟩
    refine ⟨List.length_pos.mp hpos, ?_⟩
    have hlen2 : ((m.filter (fun p => p.2)).map Prod.fst).length
        = (mapKeys m).length := by
      rw [← htk, hlen, hperm.length_eq]
    have heq : (m.filter (fun p => p.2)).map Prod.fst = mapKeys m :=
      hsub.eq_of_length hlen2
    have hflen : (m.filter (fun p => p.2)).length = m.length := by
      have := congrArg List.length heq
      simpa [mapKeys] using this
    have hfeq : m.filter (fun p => p.2) = m :=
      (List.filter_sublist m).eq_of_length hflen
    intro f hf
    have hfk : f ∈ mapKeys m := hperm.mem_iff.mpr hf
    rcases Option.isSome_iff_exists.mp ((assocLookup_isSome m f).mpr hfk)
      with ⟨v, hv⟩
    have hvt : v = true := by
      have := List.filter_eq_self.mp hfeq _ (mem_of_assocLookup hv)
      simpa using this
    rw [hv, hvt]
  · rintro ⟨hne, hall⟩
    refine ⟨List.length_pos.mpr hne, ?_⟩
    have hfeq : m.filter (fun p => p.2) = m := by
      apply List.filter_eq_self.mpr
      intro p hp
      have hpk : p.1 ∈ mapKeys m := List.mem_map_of_mem Prod.fst hp
      have hpn : p.1 ∈ names := hperm.mem_iff.mp hpk
      have hlk := hall p.1 hpn
      have hmv : assocLookup m p.1 = some p.2 :=
        assocLookup_of_mem_nodup hk (by simpa using hp)
      rw [hlk] at hmv
      simpa using (Option.some.inj hmv).symm
    rw [htk, hfeq]
    simpa [mapKeys] using hperm.length_eq

theorem updateSelected_establishes (es : List HistoryEntry)
    (m : List (List Char × Bool)) (sel0 : List (List Char)) (b0 : Bool)
    (hperm : (mapKeys m).Perm (es.map HistoryEntry.filename))
    (hnd : (es.map HistoryEntry.filename).Nodup) :
    SelectionInv (updateSelectedEntries ⟨es, m, sel0, b0⟩) ∧
      KeysMatch (updateSelectedEntries ⟨es, m, sel0, b0⟩) := by
  have hk : (mapKeys m).Nodup := hperm.nodup_iff.mpr hnd
  refine ⟨⟨?_, ?_⟩, ?_⟩
  · intro f
    exact mem_trueKeys hk f
  · show (decide (0 < es.length) && decide ((trueKeys m).length = es.length))
        = true ↔ _
    rw [Bool.and_eq_true, decide_eq_true_eq, decide_eq_true_eq]
    have hB := selectAll_characterization m (es.map HistoryEntry.filename)
      hperm hnd
    rw [List.length_map] at hB
    rw [hB]
    constructor
    · rintro ⟨hne, hall⟩
      refine ⟨by simpa [List.map_eq_nil_iff] using hne, ?_⟩
      intro e he
      exact hall e.filename (List.mem_map_of_mem _ he)
    · rintro ⟨hne, hall⟩
      refine ⟨by simpa [List.map_eq_nil_iff] using hne, ?_⟩
      intro f hf
      obtain ⟨e, he, rfl⟩ := List.mem_map.mp hf
      exact hall e he
  · exact hperm

theorem mapKeys_foldl_assocSet (v : Bool) :
    ∀ (es : List HistoryEntry) (m : List (List Char × Bool)),
      (∀ e ∈ es, e.filename ∈ mapKeys m) →
      mapKeys (es.foldl (fun m e => assocSet m e.filename v) m) = mapKeys m := by
  intro es
  induction es with
  | nil => intro m _; rfl
  | cons e rest ih =>
    intro m h
    rw [List.foldl_cons]
    have he : e.filename ∈ mapKeys m := h e (List.mem_cons_self e rest)
    have hkeys := mapKeys_assocSet_of_mem v he
    rw [ih _ (by
      intro e2 h2
      rw [hkeys]
      exact h e2 (List.mem_cons_of_mem _ h2)), hkeys]

theorem mem_mapKeys_foldl_add :
    ∀ (entries : List HistoryEntry) (m : List (List Char × Bool))
      (k : List Char),
      k ∈ mapKeys (entries.foldl
        (fun m e =>
          if (assocLookup m e.filename).isSome then m
          else m ++ [(e.filename, false)]) m) ↔
      (k ∈ mapKeys m ∨ k ∈ entries.map HistoryEntry.filename) := by
  intro entries
  induction entries with
  | nil => intro m k; simp
  | cons e rest ih =>
    intro m k
    rw [List.foldl_cons, List.map_cons]
    by_cases hs : (assocLookup m e.filename).isSome
    · rw [if_pos hs, ih]
      have he : e.filename ∈ mapKeys m := (assocLookup_isSome _ _).mp hs
      constructor
      · rintro (h1 | h2)
        · exact Or.inl h1
        · exact Or.inr (List.mem_cons_of_mem _ h2)
      · rintro (h1 | h2)
        · exact Or.inl h1
        · rcases List.mem_cons.mp h2 with rfl | h3
          · exact Or.inl he
          · exact Or.inr h3
    · rw [if_neg hs, ih]
      simp only [mapKeys, List.map_append, List.map_cons, List.map_nil,
        List.mem_append, List.mem_cons, List.mem_singleton, List.not_mem_nil,
        or_false]
      tauto

theorem nodup_mapKeys_foldl_add :
    ∀ (entries : List HistoryEntry) (m : List (List Char × Bool)),
      (mapKeys m).Nodup →
      (mapKeys (entries.foldl
        (fun m e =>
          if (assocLookup m e.filename).isSome then m
          else m ++ [(e.filename, false)]) m)).Nodup := by
  intro entries
  induction entries with
  | nil => intro m h; exact h
  | cons e rest ih =>
    intro m h
    rw [List.foldl_cons]
    by_cases hs : (assocLookup m e.filename).isSome
    · rw [if_pos hs]
      exact ih m h
    · rw [if_neg hs]
      apply ih
      have hnotmem : e.filename ∉ mapKeys m := by
        intro hmem
        exact hs ((assocLookup_isSome _ _).mpr hmem)
      rw [show mapKeys (m ++ [(e.filename, false)]) = mapKeys m ++ [e.filename] by
        simp [mapKeys]]
      rw [List.nodup_append]
      refine ⟨h, List.nodup_singleton _, ?_⟩
      intro a ha hb
      have hab : a = e.filename := by simpa using hb
      subst hab
      exact hnotmem ha

theorem mapKeys_filter (g : List Char → Bool) :
    ∀ (m : List (List Char × Bool)),
      mapKeys (m.filter (fun p => g p.1)) = (mapKeys m).filter g := by
  intro m
  induction m with
  | nil => rfl
  | cons p rest ih =>
    by_cases hg : g p.1
    · simp [mapKeys, List.filter_cons, hg] at ih ⊢
      exact ih
    · simp [mapKeys, List.filter_cons, hg] at ih ⊢
      exact ih

/-- C9: selection-state consistency of the history view — after toggling
select-all, toggling a single entry, or reloading the list, the selection
equals exactly the set of filenames checked true; select-all holds iff the
list is non-empty and every listed entry is checked; and after a reload
the keys of the checked-state map are exactly the filenames of the current
entries (new entries initialized unchecked, stale keys removed). -/
theorem selection_state_consistency (s : HistoryViewState)
    (hkeys : KeysMatch s) (hnd : (entryFilenames s).Nodup) :
    (∀ v, SelectionInv (setAllChecked s v) ∧ KeysMatch (setAllChecked s v)) ∧
    (∀ f v, f ∈ entryFilenames s →
      SelectionInv (setEntryChecked s f v) ∧
        KeysMatch (setEntryChecked s f v)) ∧
    (∀ entries, (entries.map HistoryEntry.filename).Nodup →
      SelectionInv (reloadEntries s entries) ∧
        KeysMatch (reloadEntries s entries)) := by
  obtain ⟨es, m, sel0, b0⟩ := s
  have hperm : (mapKeys m).Perm (es.map HistoryEntry.filename) := hkeys
  have hndn : (es.map HistoryEntry.filename).Nodup := hnd
  refine ⟨?_, ?_, ?_⟩
  · intro v
    have hall : ∀ e ∈ es, e.filename ∈ mapKeys m := by
      intro e he
      exact hperm.mem_iff.mpr (List.mem_map_of_mem _ he)
    have hk2 := mapKeys_foldl_assocSet v es m hall
    exact updateSelected_establishes es _ sel0 v (by rw [hk2]; exact hperm) hndn
  · intro f v hf
    have hfk : f ∈ mapKeys m := hperm.mem_iff.mpr hf
    have hk2 := mapKeys_assocSet_of_mem (v == some true) hfk
    exact updateSelected_establishes es _ sel0 b0 (by rw [hk2]; exact hperm) hndn
  · intro entries hnd2
    have hk : (mapKeys m).Nodup := hperm.nodup_iff.mpr hndn
    have hnd1 : (mapKeys (entries.foldl
        (fun m e =>
          if (assocLookup m e.filename).isSome then m
          else m ++ [(e.filename, false)]) m)).Nodup :=
      nodup_mapKeys_foldl_add entries m hk
    have hkeys2 := mapKeys_filter
      (fun k => entries.any (fun e => e.filename == k))
      (entries.foldl
        (fun m e =>
          if (assocLookup m e.filename).isSome then m
          else m ++ [(e.filename, false)]) m)
    have hg : ∀ k, ((entries.any (fun e => e.filename == k)) = true) ↔
        k ∈ entries.map HistoryEntry.filename := by
      intro k
      simp [List.any_eq_true, List.mem_map]
    have hnd2k : (mapKeys ((entries.foldl
        (fun m e =>
          if (assocLookup m e.filename).isSome then m
          else m ++ [(e.filename, false)]) m).filter
          (fun p => entries.any (fun e => e.filename == p.1)))).Nodup := by
      rw [hkeys2]
      exact hnd1.filter _
    have hmemiff : ∀ k, k ∈ mapKeys ((entries.foldl
        (fun m e =>
          if (assocLookup m e.filename).isSome then m
          else m ++ [(e.filename, false)]) m).filter
          (fun p => entries.any (fun e => e.filename == p.1))) ↔
        k ∈ entries.map HistoryEntry.filename := by
      intro k
      rw [hkeys2, List.mem_filter]
      constructor
      · rintro ⟨h1, h2⟩
        exact (hg k).mp h2
      · intro h2
        exact ⟨(mem_mapKeys_foldl_add entries m k).mpr (Or.inr h2),
          (hg k).mpr h2⟩
    have hperm2 := (List.perm_ext_iff_of_nodup hnd2k hnd2).mpr hmemiff
    exact updateSelected_establishes entries _ sel0 b0 hperm2 hnd2

/-- A sample history entry. -/
def sampleHistoryEntryA : HistoryEntry :=
  ⟨("a.hosts").toList, ("history/a.hosts").toList, 3, 120, 1700000000⟩

/-- Another sample history entry. -/
def sampleHistoryEntryB : HistoryEntry :=
  ⟨("b.hosts").toList, ("history/b.hosts").toList, 2, 90, 1700000100⟩

/-- A sample reachable history-view state: two listed entries, the first
one checked. -/
def sampleHistoryViewState : HistoryViewState :=
  ⟨[sampleHistoryEntryA, sampleHistoryEntryB],
   [(("a.hosts").toList, true), (("b.hosts").toList, false)],
   [("a.hosts").toList], false⟩

/-- Witness for C9: the consistency theorem applied to the sample state
for a select-all toggle. -/
theorem selection_state_consistency_witness :
    SelectionInv (setAllChecked sampleHistoryViewState true) ∧
      KeysMatch (setAllChecked sampleHistoryViewState true) :=
  (selection_state_consistency sampleHistoryViewState (by decide)
    (by decide)).1 true
